import Mathlib

/-!
Verification of the word-class decomposition core (src/lib.rs): the
`AvoidingWithPrefix` word class, its decomposition operations, the
brute-force fixed-length word generator (`WordOfSizeIterator`), and the
indexing of the companion `Word` value type. Strings are embedded as
`List Char`; the pyo3 glue is out of scope. Rust panics are modelled
explicitly (as error values), never silently dropped.
-/

namespace WordScope

/-- Rust `str::contains` / `String::contains`: the pattern occurs as a
contiguous substring of the haystack (the empty pattern occurs in every
string). -/
def strContains (hay patt : List Char) : Bool :=
  decide (patt <:+: hay)

/-- Embeds the Rust struct `AvoidingWithPrefix` (src/lib.rs, lines 100-111):
`pref` is the field `prefix`, `atomFlag` the field `is_just_prefix`. -/
structure AvoidingWithPrefix where
  pref : List Char
  patterns : List (List Char)
  alphabet : List Char
  atomFlag : Bool
  deriving DecidableEq, Repr

/-- Embeds `AvoidingWithPrefix::is_empty` (lines 126-128): some pattern is a
substring of the prefix. -/
def AvoidingWithPrefix.is_empty (c : AvoidingWithPrefix) : Bool :=
  c.patterns.any (fun patt => strContains c.pref patt)

/-- Embeds `AvoidingWithPrefix::is_atom` (lines 130-132). -/
def AvoidingWithPrefix.is_atom (c : AvoidingWithPrefix) : Bool :=
  c.atomFlag

/-- Embeds `AvoidingWithPrefix::minimum_size_of_object` (lines 183-185). -/
def AvoidingWithPrefix.minimum_size_of_object (c : AvoidingWithPrefix) : Nat :=
  c.pref.length

/-- The value `m` of `removable_prefix_length` (line 135):
`patterns.iter().map(|s| s.len()).max().unwrap_or(1)`. -/
def AvoidingWithPrefix.maxPatternLen (c : AvoidingWithPrefix) : Nat :=
  match c.patterns with
  | [] => 1
  | ps => (ps.map List.length).foldl Nat.max 0

/-- The `for i in safe..self.prefix.len()` loop of `removable_prefix_length`
(lines 141-151), with `k` the number of remaining positions
(`pref.length - i` at entry): at position `i` the suffix `prefix[i..]` is
compared with the first `min(end.len(), patt.len())` characters of each
pattern; on a match the loop breaks returning the current boundary `i`,
otherwise the boundary advances to `i + 1`. -/
def rplLoop (patterns : List (List Char)) (pref : List Char) : Nat → Nat → Nat
  | i, 0 => i
  | i, k + 1 =>
    if patterns.any
        (fun patt => decide (pref.drop i = patt.take (min (pref.length - i) patt.length))) then
      i
    else
      rplLoop patterns pref (i + 1) k

/-- Embeds `AvoidingWithPrefix::removable_prefix_length` (lines 134-153):
the start boundary is `prefix.len() - m` when `prefix.len() > m`, else `0`,
then the scan loop runs over the remaining positions. -/
def AvoidingWithPrefix.removable_prefix_length (c : AvoidingWithPrefix) : Nat :=
  let m := c.maxPatternLen
  let safe := if c.pref.length > m then c.pref.length - m else 0
  rplLoop c.patterns c.pref safe (c.pref.length - safe)

/-- Embeds `AvoidingWithPrefix::with_same_base` (lines 233-240): same patterns
and alphabet, new prefix and atom flag. -/
def AvoidingWithPrefix.with_same_base (c : AvoidingWithPrefix)
    (p : List Char) (flag : Bool) : AvoidingWithPrefix :=
  ⟨p, c.patterns, c.alphabet, flag⟩

/-- Embeds `AvoidingWithPrefix::expand_one_letter` (lines 155-164): the atom
child with the unchanged prefix, then one non-atom child per alphabet letter
with the letter appended to the prefix. -/
def AvoidingWithPrefix.expand_one_letter (c : AvoidingWithPrefix) : List AvoidingWithPrefix :=
  c.with_same_base c.pref true ::
    c.alphabet.map (fun letter => c.with_same_base (c.pref ++ [letter]) false)

/-- Embeds `AvoidingWithPrefix::remove_front_of_prefix` (lines 166-181):
nothing when the class is an atom or the removable length is `0`, otherwise
the atom on `prefix[..safe]` and the non-atom on `prefix[safe..]`. -/
def AvoidingWithPrefix.remove_front (c : AvoidingWithPrefix) : Option (List AvoidingWithPrefix) :=
  if c.atomFlag then none
  else
    match c.removable_prefix_length with
    | 0 => none
    | safe =>
      some [c.with_same_base (c.pref.take safe) true,
            c.with_same_base (c.pref.drop safe) false]

/-- Embeds `AvoidingWithPrefix::contains` (lines 242-253): the word is at
least as long as the prefix, starts with the prefix, and no pattern occurs
in it as a substring. -/
def AvoidingWithPrefix.contains (c : AvoidingWithPrefix) (word : List Char) : Bool :=
  if word.length < c.pref.length then false
  else if word.take c.pref.length ≠ c.pref then false
  else if c.patterns.any (fun patt => strContains word patt) then false
  else true

/-- Embeds the Rust struct `WordOfSizeIterator` (lines 263-268): `pref` is the
field `prefix`; `current` is the digit vector, most significant digit first. -/
structure WordOfSizeIterator where
  alphabet : List Char
  pref : List Char
  current : List Nat
  done : Bool
  deriving DecidableEq, Repr

/-- Embeds `WordOfSizeIterator::new` (lines 270-284). -/
def WordOfSizeIterator.new (alphabet : List Char) (size : Nat)
    (pref : List Char) : WordOfSizeIterator :=
  let done := decide (size < pref.length)
  let current := if done then [] else List.replicate (size - pref.length) 0
  ⟨alphabet, pref, current, done⟩

/-- The carry loop of `next` (lines 306-316), on the digit list reversed
(least significant digit first, as the Rust loop walks indices from the
right): an under-maximum digit is incremented and the loop breaks; a maximum
digit resets to `0` and the carry moves left; carrying past the leftmost
digit sets the done flag. The guard `d < alphLen - 1` uses truncated
subtraction: the call with an empty alphabet is unreachable, because
building the word in the same `next` call already panicked on `alphabet[i]`. -/
def odoIncr (alphLen : Nat) : List Nat → List Nat × Bool
  | [] => ([], true)
  | d :: ds =>
    if d < alphLen - 1 then ((d + 1) :: ds, false)
    else
      let r := odoIncr alphLen ds
      (0 :: r.1, r.2)

/-- The outcome of one `WordOfSizeIterator::next` call (lines 287-321):
`exhausted` is Rust's `None`, `panicked` the `self.alphabet[i]`
index-out-of-bounds panic, `yields` a word plus the updated state. -/
inductive NextResult where
  | exhausted : NextResult
  | panicked : NextResult
  | yields : List Char → WordOfSizeIterator → NextResult
  deriving DecidableEq, Repr

/-- Embeds `Iterator::next` for `WordOfSizeIterator` (lines 287-321): done
states yield nothing; otherwise the word is the prefix followed by the
alphabet symbols selected by the digit vector (`self.alphabet[i]` panics as
soon as some digit is out of range); an empty digit vector marks the
iterator done after its single emission, otherwise the digit vector is
incremented with carry. -/
def WordOfSizeIterator.next (it : WordOfSizeIterator) : NextResult :=
  if it.done then .exhausted
  else if it.current.all (fun d => decide (d < it.alphabet.length)) then
    let word := it.pref ++ it.current.map (fun d => it.alphabet.getD d ' ')
    if it.current.isEmpty then
      .yields word { it with done := true }
    else
      let r := odoIncr it.alphabet.length it.current.reverse
      .yields word { it with current := r.1.reverse, done := r.2 }
  else .panicked

/-- How a full run of the iterator ended: normally exhausted, by a panic, or
by running out of fuel (the fuel used below is proven sufficient, so this
last outcome never occurs). -/
inductive RunEnd where
  | finished : RunEnd
  | panicked : RunEnd
  | fuelOut : RunEnd
  deriving DecidableEq, Repr

/-- Runs the iterator to completion, collecting every emitted word in order. -/
def WordOfSizeIterator.run : Nat → WordOfSizeIterator → List (List Char) × RunEnd
  | 0, _ => ([], .fuelOut)
  | fuel + 1, it =>
    match it.next with
    | .exhausted => ([], .finished)
    | .panicked => ([], .panicked)
    | .yields w it2 =>
      let r := WordOfSizeIterator.run fuel it2
      (w :: r.1, r.2)

/-- The full emission sequence of `WordOfSizeIterator::new(alphabet, n, prefix)`
together with how the iteration ended. One fuel unit per emission plus the
final exhausted call is enough. -/
def wordsOfSize (alphabet : List Char) (n : Nat) (pref : List Char) :
    List (List Char) × RunEnd :=
  (WordOfSizeIterator.new alphabet n pref).run (alphabet.length ^ (n - pref.length) + 1)

/-- Embeds `AvoidingWithPrefix::objects_of_size` (lines 255-259): the odometer
words of length `n` filtered through `contains`; the `RunEnd` records whether
the underlying generator finished normally or panicked. -/
def AvoidingWithPrefix.objects_of_size (c : AvoidingWithPrefix) (n : Nat) :
    List (List Char) × RunEnd :=
  let r := wordsOfSize c.alphabet n c.pref
  (r.1.filter (fun w => c.contains w), r.2)

/-- Embeds `AvoidingWithPrefix::count_objects_of_size` (lines 212-214):
the count of `objects_of_size n`, with the same termination outcome. -/
def AvoidingWithPrefix.count_objects_of_size (c : AvoidingWithPrefix) (n : Nat) :
    Nat × RunEnd :=
  let r := c.objects_of_size n
  (r.1.length, r.2)

/-- How `Word::__getitem__` (lines 62-73) fails: `panicInvalidIndex` is the
`expect("Invalid index")` panic when the corrected index is negative (an
unrecoverable Rust panic), `outOfRange` the recoverable `PyIndexError`. -/
inductive IndexFailure where
  | panicInvalidIndex : IndexFailure
  | outOfRange : IndexFailure
  deriving DecidableEq, Repr

/-- The corrected index of `Word::__getitem__`: negative indices are shifted
by the word length. -/
def normIndex (letters : List Char) (index : Int) : Int :=
  if index < 0 then index + letters.length else index

/-- Embeds `Word::__getitem__` (lines 62-73): a negative index is shifted by
the length; a still-negative corrected index fails the `usize` conversion
and panics; otherwise a lookup past the end raises the recoverable
index-out-of-range error. -/
def wordGetItem (letters : List Char) (index : Int) : Except IndexFailure Char :=
  let corrected := normIndex letters index
  if corrected < 0 then .error .panicInvalidIndex
  else
    match letters[corrected.toNat]? with
    | none => .error .outOfRange
    | some ch => .ok ch

/-- The base-`b` digits of `v`, least significant digit first, `k` digits:
the odometer's digit vector for value `v`, reversed. -/
def natToDigitsLSD (b : Nat) : Nat → Nat → List Nat
  | 0, _ => []
  | k + 1, v => v % b :: natToDigitsLSD b k (v / b)

/-- The base-`b` digits of `v`, most significant digit first, `k` digits:
the odometer's digit vector for value `v`. -/
def natToDigits (b k v : Nat) : List Nat :=
  (natToDigitsLSD b k v).reverse

/-- The value of a least-significant-first digit list in base `b`. -/
def valLSD (b : Nat) : List Nat → Nat
  | [] => 0
  | d :: ds => d + b * valLSD b ds

/-! ### The spec's reference algorithm for the removable prefix length (C1) -/

/-- From the spec's words (§4.2): `m` = the maximum pattern length, `1` if the
pattern set is empty. -/
def specMaxLen (patterns : List (List Char)) : Nat :=
  if patterns = [] then 1 else (patterns.map List.length).foldl Nat.max 0

/-- From the spec's words (§4.2): positions `i` from the candidate boundary to
`|prefix| - 1` are scanned (`k` positions remain); the boundary advances to
`i + 1` unless the suffix `prefix[i..]` equals the first
`min(|suffix|, |pattern|)` characters of some pattern, in which case scanning
stops and the boundary stays at `i`. -/
def specScan (patterns : List (List Char)) (pref : List Char) : Nat → Nat → Nat
  | i, 0 => i
  | i, k + 1 =>
    if patterns.any (fun patt =>
        decide (pref.drop i = patt.take (min (pref.drop i).length patt.length))) then
      i
    else
      specScan patterns pref (i + 1) k

/-- From the spec's words (§4.2): the candidate boundary starts at
`max(0, |prefix| - m)`; the scan returns the final boundary. -/
def specBoundary (patterns : List (List Char)) (pref : List Char) : Nat :=
  let m := specMaxLen patterns
  let start := (max 0 ((pref.length : Int) - (m : Int))).toNat
  specScan patterns pref start (pref.length - start)

theorem specMaxLen_eq (c : AvoidingWithPrefix) : specMaxLen c.patterns = c.maxPatternLen := by
  unfold specMaxLen AvoidingWithPrefix.maxPatternLen
  cases c.patterns <;> simp

theorem specScan_eq_rplLoop (patterns : List (List Char)) (pref : List Char) :
    ∀ k i, specScan patterns pref i k = rplLoop patterns pref i k := by
  intro k
  induction k with
  | zero => intro i; rfl
  | succ k ih =>
    intro i
    simp only [specScan, rplLoop, List.length_drop]
    split
    · rfl
    · exact ih (i + 1)

theorem rplLoop_le (patterns : List (List Char)) (pref : List Char) :
    ∀ k i, rplLoop patterns pref i k ≤ i + k := by
  intro k
  induction k with
  | zero => intro i; exact Nat.le_refl i
  | succ k ih =>
    intro i
    simp only [rplLoop]
    split
    · omega
    · have := ih (i + 1); omega

theorem rplLoop_nil (pref : List Char) :
    ∀ k i, rplLoop [] pref i k = i + k := by
  intro k
  induction k with
  | zero => intro i; rfl
  | succ k ih =>
    intro i
    simp only [rplLoop, List.any_nil, Bool.false_eq_true, if_false, ih]
    omega

/-- C1: `removable_prefix_length` returns exactly the boundary computed by the
spec's reference algorithm (boundary starting at `max(0, |prefix| - m)` with
`m` the maximum pattern length, `1` when there are no patterns, advancing
until some suffix matches a pattern's leading segment); the result is always
between `0` and `|prefix|`, and equals `|prefix|` when the pattern set is
empty. -/
theorem removable_prefix_length_spec (c : AvoidingWithPrefix) :
    c.removable_prefix_length = specBoundary c.patterns c.pref ∧
    0 ≤ c.removable_prefix_length ∧
    c.removable_prefix_length ≤ c.pref.length ∧
    (c.patterns = [] → c.removable_prefix_length = c.pref.length) := by
  have hstart : (max 0 ((c.pref.length : Int) - (c.maxPatternLen : Int))).toNat
      = if c.pref.length > c.maxPatternLen then c.pref.length - c.maxPatternLen else 0 := by
    split <;> omega
  refine ⟨?_, Nat.zero_le _, ?_, ?_⟩
  · unfold specBoundary AvoidingWithPrefix.removable_prefix_length
    simp only [specMaxLen_eq, hstart, specScan_eq_rplLoop]
  · unfold AvoidingWithPrefix.removable_prefix_length
    simp only []
    have h := rplLoop_le c.patterns c.pref
      (c.pref.length - if c.pref.length > c.maxPatternLen then c.pref.length - c.maxPatternLen else 0)
      (if c.pref.length > c.maxPatternLen then c.pref.length - c.maxPatternLen else 0)
    split at h <;> split <;> omega
  · intro hp
    unfold AvoidingWithPrefix.removable_prefix_length
    have hm : c.maxPatternLen = 1 := by
      unfold AvoidingWithPrefix.maxPatternLen; rw [hp]
    simp only [hp, hm, rplLoop_nil]
    split <;> omega

/-- Witness for C1 at a concrete class with an empty pattern set. -/
theorem removable_prefix_length_spec_witness :
    (⟨['a', 'b'], [], ['a', 'b'], false⟩ : AvoidingWithPrefix).removable_prefix_length = 2 :=
  (removable_prefix_length_spec ⟨['a', 'b'], [], ['a', 'b'], false⟩).2.2.2 rfl

/-- C2: `remove_front_of_prefix` returns nothing exactly when the atom flag is
set or the removable prefix length is `0`; otherwise it returns the atom on
`prefix[0..safe]` followed by the non-atom on `prefix[safe..]`, both carrying
the parent's patterns and alphabet, and the two prefixes concatenate back to
the parent prefix. -/
theorem remove_front_spec (c : AvoidingWithPrefix) :
    (c.remove_front = none ↔ (c.atomFlag = true ∨ c.removable_prefix_length = 0)) ∧
    (∀ l, c.remove_front = some l →
      l = [⟨c.pref.take c.removable_prefix_length, c.patterns, c.alphabet, true⟩,
           ⟨c.pref.drop c.removable_prefix_length, c.patterns, c.alphabet, false⟩] ∧
      c.pref.take c.removable_prefix_length ++ c.pref.drop c.removable_prefix_length = c.pref) := by
  unfold AvoidingWithPrefix.remove_front
  by_cases h : c.atomFlag
  · simp [h]
  · simp only [h, if_false, Bool.false_eq_true, false_or]
    cases hr : c.removable_prefix_length with
    | zero => simp
    | succ k =>
      refine ⟨⟨fun h => Option.noConfusion h, fun h => Nat.noConfusion h⟩, ?_⟩
      intro l hl
      injection hl with hl
      subst hl
      exact ⟨rfl, List.take_append_drop _ _⟩

/-- Witness for C2 at a concrete non-atom class with removable length 2. -/
theorem remove_front_spec_witness :
    ([⟨['a', 'b'], [['a', 'a', 'a', 'b']], ['a', 'b'], true⟩,
      ⟨[], [['a', 'a', 'a', 'b']], ['a', 'b'], false⟩] :
        List AvoidingWithPrefix) =
      [⟨List.take
          (⟨['a', 'b'], [['a', 'a', 'a', 'b']], ['a', 'b'],
            false⟩ : AvoidingWithPrefix).removable_prefix_length ['a', 'b'],
        [['a', 'a', 'a', 'b']], ['a', 'b'], true⟩,
       ⟨List.drop
          (⟨['a', 'b'], [['a', 'a', 'a', 'b']], ['a', 'b'],
            false⟩ : AvoidingWithPrefix).removable_prefix_length ['a', 'b'],
        [['a', 'a', 'a', 'b']], ['a', 'b'], false⟩] :=
  ((remove_front_spec ⟨['a', 'b'], [['a', 'a', 'a', 'b']], ['a', 'b'], false⟩).2 _
    (by decide)).1.symm

/-- C3: `expand_one_letter` returns `|alphabet| + 1` children whatever the
prefix: first the atom child with the unchanged prefix, then, in alphabet
order, one non-atom child per symbol with that symbol appended to the prefix;
every child keeps the parent's patterns and alphabet. -/
theorem expand_one_letter_spec (c : AvoidingWithPrefix) :
    c.expand_one_letter.length = c.alphabet.length + 1 ∧
    c.expand_one_letter.head? = some ⟨c.pref, c.patterns, c.alphabet, true⟩ ∧
    (∀ i (h : i < c.alphabet.length),
      c.expand_one_letter[i + 1]? =
        some ⟨c.pref ++ [c.alphabet[i]], c.patterns, c.alphabet, false⟩) := by
  refine ⟨by simp [AvoidingWithPrefix.expand_one_letter], rfl, ?_⟩
  intro i h
  simp [AvoidingWithPrefix.expand_one_letter, AvoidingWithPrefix.with_same_base,
    List.getElem?_eq_getElem h]

/-- Witness for C3 at a concrete class, child of the first alphabet symbol. -/
theorem expand_one_letter_spec_witness :
    (⟨['a'], [['a', 'b']], ['a', 'b'], false⟩ : AvoidingWithPrefix).expand_one_letter[1]? =
      some ⟨['a', 'a'], [['a', 'b']], ['a', 'b'], false⟩ :=
  (expand_one_letter_spec ⟨['a'], [['a', 'b']], ['a', 'b'], false⟩).2.2 0 (by decide)

/-- C5: `is_empty` holds exactly when some pattern occurs as a contiguous
substring of the prefix; the alphabet and the atom flag have no influence. -/
theorem is_empty_spec (c : AvoidingWithPrefix) (alph2 : List Char) (flag2 : Bool) :
    (c.is_empty = true ↔ ∃ patt ∈ c.patterns, patt <:+: c.pref) ∧
    AvoidingWithPrefix.is_empty ⟨c.pref, c.patterns, alph2, flag2⟩ = c.is_empty := by
  constructor
  · simp [AvoidingWithPrefix.is_empty, strContains, List.any_eq_true]
  · rfl

/-- C9 counterexample: indexing the one-letter word `"a"` at `-2` (whose
normalized value `-1` is out of range) does not raise the recoverable
index-out-of-range error: it hits the `expect("Invalid index")` panic. -/
theorem wordGetItem_neg_panics :
    wordGetItem ['a'] (-2) = .error .panicInvalidIndex ∧
    wordGetItem ['a'] (-2) ≠ .error .outOfRange := by
  constructor
  · rfl
  · intro h
    have : IndexFailure.panicInvalidIndex = IndexFailure.outOfRange := by
      have h0 : wordGetItem ['a'] (-2) = .error .panicInvalidIndex := rfl
      rw [h0] at h
      injection h
    cases this

/-- C9 (amended): indexing a word at an out-of-range index fails; when the
normalized index is non-negative but at least the length, the failure is the
recoverable index-out-of-range error, but when the normalized index is still
negative (`i < -len`), the failure is the unrecoverable `Invalid index`
panic of the `usize` conversion. -/
theorem wordGetItem_out_of_range (letters : List Char) (index : Int) :
    (0 ≤ normIndex letters index → (letters.length : Int) ≤ normIndex letters index →
      wordGetItem letters index = .error .outOfRange) ∧
    (normIndex letters index < 0 →
      wordGetItem letters index = .error .panicInvalidIndex) := by
  constructor
  · intro h0 hlen
    unfold wordGetItem
    rw [if_neg (by omega)]
    rw [List.getElem?_eq_none (by omega)]
  · intro h
    unfold wordGetItem
    rw [if_pos h]

/-- Witness for C9 (amended): a positive out-of-range index on `"a"` raises
the recoverable error, and `-2` on `"a"` hits the panic. -/
theorem wordGetItem_out_of_range_witness :
    wordGetItem ['a'] 5 = .error .outOfRange ∧
    wordGetItem ['a'] (-2) = .error .panicInvalidIndex :=
  ⟨(wordGetItem_out_of_range ['a'] 5).1 (by decide) (by decide),
   (wordGetItem_out_of_range ['a'] (-2)).2 (by decide)⟩

/-! ### Concrete enumeration example (C7) and the empty pattern (C10) -/

/-- C7: for the class with prefix `"a"`, patterns `["ab"]`, alphabet
`['a','b']`: `objects_of_size 0` is empty, `objects_of_size 1 = ["a"]`,
`objects_of_size 2 = ["aa"]` (the candidate `"ab"` is filtered out), and
`count_objects_of_size 2 = 1`. -/
theorem example_class_counts :
    ((⟨['a'], [['a', 'b']], ['a', 'b'], false⟩ : AvoidingWithPrefix).objects_of_size 0).1 = [] ∧
    ((⟨['a'], [['a', 'b']], ['a', 'b'], false⟩ : AvoidingWithPrefix).objects_of_size 1).1 =
      [['a']] ∧
    ((⟨['a'], [['a', 'b']], ['a', 'b'], false⟩ : AvoidingWithPrefix).objects_of_size 2).1 =
      [['a', 'a']] ∧
    ((⟨['a'], [['a', 'b']], ['a', 'b'], false⟩ : AvoidingWithPrefix).count_objects_of_size 2).1 =
      1 := by
  refine ⟨?_, ?_, ?_, ?_⟩ <;> decide

/-- C10: a class whose pattern list holds the empty string denotes the empty
set: `is_empty` is true for every prefix, `contains` rejects every word, and
`objects_of_size` emits no word at any size. -/
theorem empty_pattern_denotes_empty (c : AvoidingWithPrefix) (h : [] ∈ c.patterns) :
    c.is_empty = true ∧ (∀ w, c.contains w = false) ∧
    (∀ n, (c.objects_of_size n).1 = []) := by
  have hany : ∀ w : List Char, c.patterns.any (fun patt => strContains w patt) = true := by
    intro w
    exact List.any_eq_true.mpr ⟨[], h, by simp [strContains]⟩
  have hcon : ∀ w, c.contains w = false := by
    intro w
    unfold AvoidingWithPrefix.contains
    split
    · rfl
    · split
      · rfl
      · simp [hany w]
  refine ⟨hany c.pref, hcon, ?_⟩
  intro n
  show ((wordsOfSize c.alphabet n c.pref).1.filter (fun w => c.contains w)) = []
  apply List.filter_eq_nil_iff.mpr
  intro a _
  simp [hcon a]

/-- Witness for C10 at the class with prefix `"a"` and the empty pattern. -/
theorem empty_pattern_denotes_empty_witness :
    (⟨['a'], [[]], ['a'], false⟩ : AvoidingWithPrefix).is_empty = true ∧
    ((⟨['a'], [[]], ['a'], false⟩ : AvoidingWithPrefix).objects_of_size 3).1 = [] :=
  ⟨(empty_pattern_denotes_empty ⟨['a'], [[]], ['a'], false⟩ (by decide)).1,
   (empty_pattern_denotes_empty ⟨['a'], [[]], ['a'], false⟩ (by decide)).2.2 3⟩

/-! ### Run invariants of the generator (C6) -/

theorem odoIncr_length (b : Nat) : ∀ ds : List Nat, (odoIncr b ds).1.length = ds.length := by
  intro ds
  induction ds with
  | nil => rfl
  | cons d ds ih =>
    unfold odoIncr
    split
    · rfl
    · simpa using ih

theorem next_yields_shape {it it2 : WordOfSizeIterator} {w : List Char}
    (h : it.next = .yields w it2) :
    w.length = it.pref.length + it.current.length ∧
    it2.pref = it.pref ∧ it2.current.length = it.current.length := by
  unfold WordOfSizeIterator.next at h
  split at h
  · exact (NextResult.noConfusion h)
  · split at h
    · split at h
      · injection h with hw hit
        subst hw; subst hit
        simp
      · injection h with hw hit
        subst hw; subst hit
        simp [odoIncr_length]
    · exact (NextResult.noConfusion h)

theorem run_mem_length : ∀ (fuel : Nat) (it : WordOfSizeIterator) (w : List Char),
    w ∈ (WordOfSizeIterator.run fuel it).1 →
    w.length = it.pref.length + it.current.length := by
  intro fuel
  induction fuel with
  | zero =>
    intro it w hw
    simp [WordOfSizeIterator.run] at hw
  | succ fuel ih =>
    intro it w hw
    rw [WordOfSizeIterator.run] at hw
    cases hnext : it.next with
    | exhausted => rw [hnext] at hw; simp at hw
    | panicked => rw [hnext] at hw; simp at hw
    | yields w2 it2 =>
      rw [hnext] at hw
      simp only [List.mem_cons] at hw
      obtain ⟨hlen, hpref, hcur⟩ := next_yields_shape hnext
      cases hw with
      | inl hww => subst hww; exact hlen
      | inr hww =>
        have := ih it2 w hww
        rw [this, hpref, hcur]

theorem run_of_done {fuel : Nat} {it : WordOfSizeIterator} (h : it.done = true) :
    WordOfSizeIterator.run (fuel + 1) it = ([], .finished) := by
  have hnext : it.next = .exhausted := by
    unfold WordOfSizeIterator.next
    rw [if_pos h]
  rw [WordOfSizeIterator.run, hnext]

/-- C6: every word emitted by `objects_of_size n` satisfies `contains` and has
length exactly `n`; and for `n < |prefix|` the enumeration is empty, the
generator finishing normally. -/
theorem objects_of_size_sound (c : AvoidingWithPrefix) (n : Nat) :
    (∀ w ∈ (c.objects_of_size n).1, c.contains w = true ∧ w.length = n) ∧
    (n < c.pref.length → c.objects_of_size n = ([], .finished)) := by
  constructor
  · intro w hw
    have hw' : w ∈ (wordsOfSize c.alphabet n c.pref).1 ∧ c.contains w = true :=
      List.mem_filter.mp hw
    refine ⟨hw'.2, ?_⟩
    have hlen := run_mem_length _ _ w hw'.1
    by_cases hn : n < c.pref.length
    · -- with n < |prefix| the iterator starts done and emits nothing
      have : (wordsOfSize c.alphabet n c.pref) = ([], .finished) := by
        have hd : (WordOfSizeIterator.new c.alphabet n c.pref).done = true := by
          simp [WordOfSizeIterator.new, hn]
        exact run_of_done hd
      rw [this] at hw'
      simp at hw'
    · simp [WordOfSizeIterator.new, hn] at hlen
      omega
  · intro hn
    have hrun : (wordsOfSize c.alphabet n c.pref) = ([], .finished) := by
      have hd : (WordOfSizeIterator.new c.alphabet n c.pref).done = true := by
        simp [WordOfSizeIterator.new, hn]
      exact run_of_done hd
    show ((wordsOfSize c.alphabet n c.pref).1.filter (fun w => c.contains w),
      (wordsOfSize c.alphabet n c.pref).2) = ([], .finished)
    rw [hrun]
    rfl

/-- Witness for C6 at the concrete class of C7's example, size 1. -/
theorem objects_of_size_sound_witness :
    (⟨['a'], [['a', 'b']], ['a', 'b'], false⟩ : AvoidingWithPrefix).contains ['a'] = true ∧
    (['a'] : List Char).length = 1 :=
  (objects_of_size_sound ⟨['a'], [['a', 'b']], ['a', 'b'], false⟩ 1).1 ['a'] (by decide)

/-! ### Odometer correctness (C4, C8) -/

theorem length_natToDigitsLSD (b : Nat) : ∀ k v, (natToDigitsLSD b k v).length = k := by
  intro k
  induction k with
  | zero => intro v; rfl
  | succ k ih => intro v; simp [natToDigitsLSD, ih]

theorem natToDigitsLSD_lt (b : Nat) (hb : 0 < b) :
    ∀ k v d, d ∈ natToDigitsLSD b k v → d < b := by
  intro k
  induction k with
  | zero => intro v d hd; simp [natToDigitsLSD] at hd
  | succ k ih =>
    intro v d hd
    rw [natToDigitsLSD] at hd
    cases List.mem_cons.mp hd with
    | inl h => subst h; exact Nat.mod_lt _ hb
    | inr h => exact ih (v / b) d h

theorem natToDigitsLSD_zero (b : Nat) : ∀ k, natToDigitsLSD b k 0 = List.replicate k 0 := by
  intro k
  induction k with
  | zero => rfl
  | succ k ih => simp [natToDigitsLSD, Nat.zero_mod, Nat.zero_div, ih, List.replicate]

theorem valLSD_natToDigitsLSD (b : Nat) (hb : 0 < b) :
    ∀ k v, v < b ^ k → valLSD b (natToDigitsLSD b k v) = v := by
  intro k
  induction k with
  | zero =>
    intro v hv
    have : v = 0 := by simpa using hv
    subst this; rfl
  | succ k ih =>
    intro v hv
    have hdb : v / b < b ^ k := by
      rw [Nat.div_lt_iff_lt_mul hb]
      calc v < b ^ (k + 1) := hv
        _ = b ^ k * b := by rw [pow_succ]
    rw [natToDigitsLSD, valLSD, ih (v / b) hdb, Nat.mod_add_div]

theorem odoIncr_natToDigitsLSD (b : Nat) (hb : 0 < b) :
    ∀ k v, v + 1 ≤ b ^ k →
      odoIncr b (natToDigitsLSD b k v) =
        if v + 1 < b ^ k then (natToDigitsLSD b k (v + 1), false)
        else (List.replicate k 0, true) := by
  intro k
  induction k with
  | zero =>
    intro v hv
    have hv0 : v = 0 := by simpa using hv
    subst hv0
    simp [natToDigitsLSD, odoIncr]
  | succ k ih =>
    intro v hv
    have hvb : v % b < b := Nat.mod_lt _ hb
    have hsplit : v % b + b * (v / b) = v := Nat.mod_add_div v b
    rw [natToDigitsLSD]
    unfold odoIncr
    by_cases hd : v % b < b - 1
    · rw [if_pos hd]
      have hvmod : v % b + 1 < b := by omega
      have hv1 : v + 1 = (v % b + 1) + b * (v / b) := by omega
      have hmod1 : (v + 1) % b = v % b + 1 := by
        rw [hv1, Nat.add_mul_mod_self_left, Nat.mod_eq_of_lt hvmod]
      have hdiv1 : (v + 1) / b = v / b := by
        rw [hv1, Nat.add_mul_div_left _ _ hb, Nat.div_eq_of_lt hvmod, Nat.zero_add]
      have hlt : v + 1 < b ^ (k + 1) := by
        rcases Nat.lt_or_ge (v + 1) (b ^ (k + 1)) with h | h
        · exact h
        · exfalso
          have heq : v + 1 = b ^ (k + 1) := by omega
          have h0 : (v + 1) % b = 0 := by
            rw [heq, pow_succ, Nat.mul_mod_left]
          omega
      rw [if_pos hlt, natToDigitsLSD, hmod1, hdiv1]
    · rw [if_neg hd]
      have hdeq : v % b = b - 1 := by omega
      have hv1 : v + 1 = b * (v / b + 1) := by
        rw [Nat.mul_add, Nat.mul_one]; omega
      have hle : v / b + 1 ≤ b ^ k := by
        have h1 : b * (v / b + 1) ≤ b * b ^ k := by
          rw [← hv1]
          calc v + 1 ≤ b ^ (k + 1) := hv
            _ = b * b ^ k := by rw [pow_succ, Nat.mul_comm]
        exact Nat.le_of_mul_le_mul_left h1 hb
      have ihr := ih (v / b) hle
      by_cases hlt : v / b + 1 < b ^ k
      · rw [if_pos hlt] at ihr
        have hv1lt : v + 1 < b ^ (k + 1) := by
          rw [hv1, pow_succ, Nat.mul_comm (b ^ k) b]
          exact (Nat.mul_lt_mul_left hb).mpr hlt
        rw [if_pos hv1lt]
        have hmod : (v + 1) % b = 0 := by rw [hv1, Nat.mul_mod_right]
        have hdiv : (v + 1) / b = v / b + 1 := by
          rw [hv1, Nat.mul_div_cancel_left _ hb]
        rw [natToDigitsLSD, hmod, hdiv]
        simp [ihr]
      · have hveq : v / b + 1 = b ^ k := by omega
        have hv1eq : v + 1 = b ^ (k + 1) := by
          rw [hv1, hveq, pow_succ, Nat.mul_comm]
        rw [if_neg (by omega)]
        rw [if_neg hlt] at ihr
        simp [ihr, List.replicate]

theorem next_state (alph pref : List Char) (cur : List Nat)
    (hall : ∀ d ∈ cur, d < alph.length) :
    (WordOfSizeIterator.mk alph pref cur false).next =
      .yields (pref ++ cur.map (fun d => alph.getD d ' '))
        (if cur.isEmpty then WordOfSizeIterator.mk alph pref cur true
         else WordOfSizeIterator.mk alph pref
                (odoIncr alph.length cur.reverse).1.reverse
                (odoIncr alph.length cur.reverse).2) := by
  have hb : cur.all (fun d => decide (d < alph.length)) = true := by
    simp only [List.all_eq_true, decide_eq_true_eq]
    exact hall
  unfold WordOfSizeIterator.next
  simp only [Bool.false_eq_true, if_false, hb, if_true]
  split <;> rfl

theorem run_from (alph pref : List Char) (hb : 0 < alph.length) (k : Nat) :
    ∀ m v fuel, 0 < m → v + m = alph.length ^ k → m + 1 ≤ fuel →
      WordOfSizeIterator.run fuel
          (WordOfSizeIterator.mk alph pref (natToDigits alph.length k v) false) =
        ((List.range' v m).map
          (fun u => pref ++ (natToDigits alph.length k u).map (fun d => alph.getD d ' ')),
         .finished) := by
  intro m
  induction m with
  | zero => intro v fuel h0 _ _; exact absurd h0 (Nat.lt_irrefl 0)
  | succ m ih =>
    intro v fuel _ hsum hfuel
    obtain ⟨f, rfl⟩ : ∃ f, fuel = f + 1 := ⟨fuel - 1, by omega⟩
    have hvlt : v < alph.length ^ k := by omega
    have hall : ∀ d ∈ natToDigits alph.length k v, d < alph.length := by
      intro d hd
      simp only [natToDigits, List.mem_reverse] at hd
      exact natToDigitsLSD_lt alph.length hb k v d hd
    rw [WordOfSizeIterator.run, next_state alph pref _ hall]
    cases hm : m with
    | zero =>
      have hveq : v + 1 = alph.length ^ k := by omega
      obtain ⟨f2, rfl⟩ : ∃ f2, f = f2 + 1 := ⟨f - 1, by omega⟩
      by_cases hcur : (natToDigits alph.length k v).isEmpty
      · rw [if_pos hcur]
        dsimp only
        rw [run_of_done rfl]
        simp [List.range']
      · rw [if_neg hcur]
        simp only [natToDigits, List.reverse_reverse]
        rw [odoIncr_natToDigitsLSD alph.length hb k v (by omega), if_neg (by omega)]
        dsimp only
        rw [run_of_done rfl]
        simp [List.range', natToDigits]
    | succ m2 =>
      have hv1lt : v + 1 < alph.length ^ k := by omega
      have hk0 : k ≠ 0 := by
        intro h
        subst h
        simp only [pow_zero] at hsum
        omega
      have hkne : ¬ (natToDigits alph.length k v).isEmpty = true := by
        intro h
        have h2 : natToDigits alph.length k v = [] := by simpa using h
        have hl := congrArg List.length h2
        simp [natToDigits, length_natToDigitsLSD] at hl
        exact hk0 hl
      rw [if_neg hkne]
      simp only [natToDigits, List.reverse_reverse]
      rw [odoIncr_natToDigitsLSD alph.length hb k v (by omega), if_pos hv1lt]
      dsimp only
      have ihr := ih (v + 1) f (by omega) (by omega) (by omega)
      simp only [natToDigits] at ihr
      rw [ihr, List.range'_succ]
      simp [natToDigits, hm]

theorem run_done_pos {it : WordOfSizeIterator} (h : it.done = true) :
    ∀ fuel, 0 < fuel → WordOfSizeIterator.run fuel it = ([], .finished) := by
  intro fuel hf
  obtain ⟨f, rfl⟩ : ∃ f, fuel = f + 1 := ⟨fuel - 1, by omega⟩
  exact run_of_done h

theorem wordsOfSize_of_lt (alph pref : List Char) (n : Nat) (hn : n < pref.length) :
    wordsOfSize alph n pref = ([], .finished) := by
  have hd : (WordOfSizeIterator.new alph n pref).done = true := by
    simp [WordOfSizeIterator.new, hn]
  exact run_of_done hd

theorem wordsOfSize_of_eq (alph pref : List Char) (n : Nat) (hn : n = pref.length) :
    wordsOfSize alph n pref = ([pref], .finished) := by
  subst hn
  unfold wordsOfSize
  have hnew : WordOfSizeIterator.new alph pref.length pref =
      WordOfSizeIterator.mk alph pref [] false := by
    simp [WordOfSizeIterator.new]
  rw [hnew, WordOfSizeIterator.run, next_state alph pref [] (by intro d hd; cases hd)]
  rw [if_pos List.isEmpty_nil]
  dsimp only
  rw [run_done_pos rfl _ (by simp [Nat.sub_self])]
  simp

theorem wordsOfSize_of_gt (alph pref : List Char) (n : Nat) (hne : alph ≠ [])
    (hn : pref.length < n) :
    wordsOfSize alph n pref =
      ((List.range' 0 (alph.length ^ (n - pref.length))).map
        (fun v => pref ++ (natToDigits alph.length (n - pref.length) v).map
          (fun d => alph.getD d ' ')), .finished) := by
  have hb : 0 < alph.length := List.length_pos.mpr hne
  have hnlt : ¬ n < pref.length := by omega
  have hnew : WordOfSizeIterator.new alph n pref =
      WordOfSizeIterator.mk alph pref (natToDigits alph.length (n - pref.length) 0) false := by
    simp [WordOfSizeIterator.new, hnlt, natToDigits, natToDigitsLSD_zero]
  unfold wordsOfSize
  rw [hnew]
  exact run_from alph pref hb (n - pref.length) (alph.length ^ (n - pref.length)) 0
    (alph.length ^ (n - pref.length) + 1) (Nat.pos_pow_of_pos _ hb) (by omega)
    (Nat.le_refl _)

theorem wordsOfSize_empty_alph (pref : List Char) (n : Nat) (hn : pref.length < n) :
    wordsOfSize [] n pref = ([], .panicked) := by
  have hnlt : ¬ n < pref.length := by omega
  have hnew : WordOfSizeIterator.new [] n pref =
      WordOfSizeIterator.mk [] pref (List.replicate (n - pref.length) 0) false := by
    simp [WordOfSizeIterator.new, hnlt]
  have hall : ¬ ((List.replicate (n - pref.length) (0 : Nat)).all
      (fun d => decide (d < List.length ([] : List Char))) = true) := by
    simp only [List.all_eq_true]
    intro h
    have h0 := h 0 (List.mem_replicate.mpr ⟨by omega, rfl⟩)
    simp at h0
  have hnext :
      (WordOfSizeIterator.mk [] pref (List.replicate (n - pref.length) 0) false).next
        = .panicked := by
    unfold WordOfSizeIterator.next
    rw [if_neg (by simp)]
    rw [if_neg hall]
  have hfuel : (List.length ([] : List Char)) ^ (n - pref.length) + 1 = 0 + 1 := by
    rw [List.length_nil, Nat.zero_pow (by omega)]
  unfold wordsOfSize
  rw [hnew, hfuel, WordOfSizeIterator.run, hnext]

theorem map_getD_inj (alph : List Char) (hnd : alph.Nodup) :
    ∀ ds es : List Nat, (∀ d ∈ ds, d < alph.length) → (∀ e ∈ es, e < alph.length) →
      ds.map (fun d => alph.getD d ' ') = es.map (fun d => alph.getD d ' ') → ds = es := by
  intro ds
  induction ds with
  | nil =>
    intro es _ _ h
    exact (List.map_eq_nil_iff.mp h.symm).symm
  | cons d ds ih =>
    intro es hds hes h
    cases es with
    | nil => simp at h
    | cons e es =>
      simp only [List.map_cons, List.cons.injEq] at h
      have hdlt : d < alph.length := hds d (List.mem_cons_self d ds)
      have helt : e < alph.length := hes e (List.mem_cons_self e es)
      have hget : alph[d] = alph[e] := by
        rw [← List.getD_eq_getElem alph ' ' hdlt, ← List.getD_eq_getElem alph ' ' helt]
        exact h.1
      have hde : d = e := (hnd.getElem_inj_iff).mp hget
      subst hde
      have htail := ih es (fun x hx => hds x (List.mem_cons_of_mem d hx))
        (fun x hx => hes x (List.mem_cons_of_mem d hx)) h.2
      rw [htail]

theorem wordsOfSize_words_nodup (alph pref : List Char) (hb : 0 < alph.length)
    (hnd : alph.Nodup) (k : Nat) :
    ((List.range' 0 (alph.length ^ k)).map
      (fun v => pref ++ (natToDigits alph.length k v).map
        (fun d => alph.getD d ' '))).Nodup := by
  apply List.Nodup.map_on ?_ (List.nodup_range' 0 (alph.length ^ k))
  intro u hu u2 hu2 heq
  have hu' : u < alph.length ^ k := by
    obtain ⟨i, hi, rfl⟩ := List.mem_range'.mp hu
    omega
  have hu2' : u2 < alph.length ^ k := by
    obtain ⟨i, hi, rfl⟩ := List.mem_range'.mp hu2
    omega
  have happ := List.append_cancel_left heq
  have hdig : natToDigits alph.length k u = natToDigits alph.length k u2 :=
    map_getD_inj alph hnd _ _
      (fun d hd => natToDigitsLSD_lt alph.length hb k u d
        (by simpa [natToDigits] using hd))
      (fun d hd => natToDigitsLSD_lt alph.length hb k u2 d
        (by simpa [natToDigits] using hd))
      happ
  have hlsd : natToDigitsLSD alph.length k u = natToDigitsLSD alph.length k u2 := by
    have := congrArg List.reverse hdig
    simpa [natToDigits] using this
  have := congrArg (valLSD alph.length) hlsd
  rwa [valLSD_natToDigitsLSD alph.length hb k u hu',
    valLSD_natToDigitsLSD alph.length hb k u2 hu2'] at this

/-- C4 (amended): for `n < |prefix|` the generator finishes with no emission;
for `n = |prefix|` it finishes after emitting exactly the prefix; for
`n > |prefix|` and a nonempty alphabet it finishes after exactly
`|alphabet| ^ (n - |prefix|)` emissions, in ascending digit-vector order
(the word for value `v` is the prefix followed by the alphabet symbols
selected by the base-`|alphabet|` digit vector of `v`), and the emissions
are pairwise distinct whenever the alphabet has no duplicate symbols (its
documented invariant). With an empty alphabet and `n > |prefix|` the
generator panics instead (see the counterexample). -/
theorem wordsOfSize_spec (alph pref : List Char) (n : Nat) :
    (n < pref.length → wordsOfSize alph n pref = ([], .finished)) ∧
    (n = pref.length → wordsOfSize alph n pref = ([pref], .finished)) ∧
    (pref.length < n → alph ≠ [] →
      wordsOfSize alph n pref =
        ((List.range' 0 (alph.length ^ (n - pref.length))).map
          (fun v => pref ++ (natToDigits alph.length (n - pref.length) v).map
            (fun d => alph.getD d ' ')), .finished) ∧
      (wordsOfSize alph n pref).1.length = alph.length ^ (n - pref.length) ∧
      (alph.Nodup → (wordsOfSize alph n pref).1.Nodup)) := by
  refine ⟨wordsOfSize_of_lt alph pref n, wordsOfSize_of_eq alph pref n, ?_⟩
  intro hn hne
  have hb : 0 < alph.length := List.length_pos.mpr hne
  have heq := wordsOfSize_of_gt alph pref n hne hn
  refine ⟨heq, ?_, ?_⟩
  · rw [heq]
    simp
  · intro hnd
    rw [heq]
    exact wordsOfSize_words_nodup alph pref hb hnd (n - pref.length)

/-- C4 counterexample: with the empty alphabet, empty prefix and `n = 1`
(`n > |prefix|`), the generator does not finish normally with
`0 ^ 1 = 0` emissions: it panics on the out-of-range index `alphabet[0]`. -/
theorem wordsOfSize_empty_alph_panics :
    wordsOfSize [] 1 [] = ([], .panicked) ∧ RunEnd.panicked ≠ RunEnd.finished := by
  constructor
  · rfl
  · intro h
    cases h

/-- Witness for C4 (amended) with alphabet `['a','b']`, prefix `"x"`, `n = 2`. -/
theorem wordsOfSize_spec_witness :
    (wordsOfSize ['a', 'b'] 2 ['x']).1.length = 2 ∧ (wordsOfSize ['a', 'b'] 2 ['x']).1.Nodup := by
  have h := (wordsOfSize_spec ['a', 'b'] ['x'] 2).2.2 (by decide) (by decide)
  exact ⟨h.2.1, h.2.2 (by decide)⟩

/-- C8 (amended): `objects_of_size` and `count_objects_of_size` return
normally whenever the alphabet is nonempty or `n ≤ |prefix|` (in particular
an empty pattern set never hurts); but with an empty alphabet and
`n > |prefix|` the generator indexes into the empty alphabet and panics, so
these two operations are not total on empty alphabets. -/
theorem objects_of_size_total (c : AvoidingWithPrefix) (n : Nat) :
    ((c.alphabet ≠ [] ∨ n ≤ c.pref.length) →
      (c.objects_of_size n).2 = .finished ∧ (c.count_objects_of_size n).2 = .finished) ∧
    (c.alphabet = [] → c.pref.length < n →
      c.objects_of_size n = ([], .panicked) ∧ c.count_objects_of_size n = (0, .panicked)) := by
  have hobj2 : ∀ r : List (List Char) × RunEnd, wordsOfSize c.alphabet n c.pref = r →
      c.objects_of_size n = (r.1.filter (fun w => c.contains w), r.2) := by
    intro r hr
    show ((wordsOfSize c.alphabet n c.pref).1.filter (fun w => c.contains w),
      (wordsOfSize c.alphabet n c.pref).2) = _
    rw [hr]
  constructor
  · intro h
    have hfin : (wordsOfSize c.alphabet n c.pref).2 = .finished := by
      rcases Nat.lt_trichotomy n c.pref.length with hlt | heq | hgt
      · rw [wordsOfSize_of_lt c.alphabet c.pref n hlt]
      · rw [wordsOfSize_of_eq c.alphabet c.pref n heq]
      · cases h with
        | inl hne => rw [wordsOfSize_of_gt c.alphabet c.pref n hne hgt]
        | inr hle => omega
    have h2 : (c.objects_of_size n).2 = .finished := by
      rw [hobj2 _ rfl]
      exact hfin
    exact ⟨h2, h2⟩
  · intro hal hn
    have hrun : wordsOfSize c.alphabet n c.pref = ([], .panicked) := by
      rw [hal]
      exact wordsOfSize_empty_alph c.pref n hn
    have hobj := hobj2 _ hrun
    simp only [List.filter_nil] at hobj
    refine ⟨hobj, ?_⟩
    show ((c.objects_of_size n).1.length, (c.objects_of_size n).2) = (0, .panicked)
    rw [hobj]
    rfl

/-- C8 counterexample: on the class with empty alphabet and empty prefix,
`objects_of_size 1` does not return normally: the underlying generator
panics. -/
theorem objects_of_size_empty_alph_panics :
    ((⟨[], [], [], false⟩ : AvoidingWithPrefix).objects_of_size 1).2 = RunEnd.panicked ∧
    RunEnd.panicked ≠ RunEnd.finished := by
  constructor
  · rfl
  · intro h
    cases h

/-- Witness for C8 (amended): a nonempty-alphabet class returns normally at
`n = 2`, and the empty-alphabet class panics at `n = 1`. -/
theorem objects_of_size_total_witness :
    ((⟨['a'], [], ['a'], false⟩ : AvoidingWithPrefix).objects_of_size 2).2 = .finished ∧
    (⟨[], [], [], false⟩ : AvoidingWithPrefix).objects_of_size 1 = ([], .panicked) :=
  ⟨((objects_of_size_total ⟨['a'], [], ['a'], false⟩ 2).1 (Or.inl (by decide))).1,
   ((objects_of_size_total ⟨[], [], [], false⟩ 1).2 rfl (by decide)).1⟩

end WordScope
